import Mathlib

/-!
Shallow embedding of the ETL expression-template library core
(fast_op.hpp, fast_matrix.hpp, transformers.hpp, fast_matrix_view.hpp,
pooling, blas/egblas wrappers) and proofs of the specified properties.
Machine `std::size_t` indices are modelled as `Nat`; element values as `Int`.
-/

namespace Etl

/-- The binary operation tags of fast_op.hpp: each tag's `apply` is the
corresponding scalar operation. C++ integer `/` and `%` truncate towards
zero, which is `Int.tdiv` / `Int.tmod`. -/
inductive BinTag where
  | plus
  | minus
  | mul
  | div
  | mod
deriving DecidableEq, Repr

/-- `apply` of the binary operation tags (plus_binary_op, minus_binary_op,
mul_binary_op, div_binary_op, mod_binary_op in fast_op.hpp). -/
def BinTag.apply : BinTag → Int → Int → Int
  | .plus, lhs, rhs => lhs + rhs
  | .minus, lhs, rhs => lhs - rhs
  | .mul, lhs, rhs => lhs * rhs
  | .div, lhs, rhs => lhs.tdiv rhs
  | .mod, lhs, rhs => lhs.tmod rhs

/-- `etl::fast_matrix<T, Rows, Columns>` of fast_matrix.hpp: a 2D container
with a contiguous row-major buffer of `Rows * Columns` elements. The
compile-time extents become the fields `rows` and `cols`. -/
structure FastMatrix where
  rows : Nat
  cols : Nat
  data : List Int
deriving DecidableEq, Repr

/-- `fast_matrix::size()`, which the source defines as `Rows * Columns`
(also the `etl_size` constant). -/
def FastMatrix.size (m : FastMatrix) : Nat := m.rows * m.cols

/-- `fast_matrix::operator[](i)`: linear access into the buffer. -/
def FastMatrix.lin (m : FastMatrix) (i : Nat) : Int := m.data.getD i 0

/-- `fast_matrix::operator()(i, j)`: row-major access `_data[i * Columns + j]`. -/
def FastMatrix.at2 (m : FastMatrix) (i j : Nat) : Int :=
  m.data.getD (i * m.cols + j) 0

/-- The container invariant of a constructed `fast_matrix`: its buffer
(`std::array<T, Rows * Columns>`) holds exactly `Rows * Columns` elements. -/
def FastMatrix.wf (m : FastMatrix) : Prop := m.data.length = m.size

/-- Modelled from the spec: `binary_expr` lives in fast_expr.hpp, which is
not among the sources; per the spec a binary node "holds two sub-expressions
and an operation tag; element access applies the tag's binary scalar function
to corresponding elements of both operands". The operands are kept as index
readers, matching reference semantics of expression nodes. -/
structure BinaryExpr where
  op : BinTag
  lhs : Nat → Int
  rhs : Nat → Int

/-- Modelled from the spec: element access `binary_expr::operator[](i)`
applies the tag to the operands' elements at `i`. -/
def BinaryExpr.get (e : BinaryExpr) (i : Nat) : Int :=
  e.op.apply (e.lhs i) (e.rhs i)

/-- The evaluation loop of `fast_matrix::operator=(binary_expr&&)` (and the
constructor from an expression): `for (i = 0; i < size; ++i) _data[i] = e[i]`.
The element reader `e` receives the current buffer contents, because the
expression may hold a reference to the destination itself (aliasing). -/
def assignLoop (e : List Int → Nat → Int) (n : Nat) (data : List Int) : List Int :=
  (List.range n).foldl (fun d i => d.set i (e d i)) data

/-- `fast_matrix::operator=(binary_expr&&)`: evaluate the expression
element by element into this matrix's buffer. -/
def FastMatrix.assignExpr (m : FastMatrix) (e : List Int → Nat → Int) : FastMatrix :=
  ⟨m.rows, m.cols, assignLoop e m.size m.data⟩

theorem assignLoop_succ (e : List Int → Nat → Int) (n : Nat) (data : List Int) :
    assignLoop e (n + 1) data =
      (assignLoop e n data).set n (e (assignLoop e n data) n) := by
  simp [assignLoop, List.range_succ]

theorem assignLoop_length (e : List Int → Nat → Int) (n : Nat) (data : List Int) :
    (assignLoop e n data).length = data.length := by
  induction n with
  | zero => simp [assignLoop]
  | succ n ih => rw [assignLoop_succ]; simpa using ih

/-- Behaviour of the evaluation loop for an element reader that consults the
current buffer only at the index being written (which covers both a
non-aliased expression and the self-referential `a = a + b` case): position
`i` ends up holding `g` applied to the original contents at `i`. -/
theorem getD_set_self (l : List Int) (i : Nat) (a : Int) (h : i < l.length) :
    (l.set i a).getD i 0 = a := by
  rw [List.getD_eq_getElem?_getD, List.getElem?_set_self h, Option.getD_some]

theorem getD_set_ne (l : List Int) (i j : Nat) (a : Int) (h : i ≠ j) :
    (l.set i a).getD j 0 = l.getD j 0 := by
  rw [List.getD_eq_getElem?_getD, List.getElem?_set_ne h, ← List.getD_eq_getElem?_getD]

/-- Behaviour of the evaluation loop for an element reader that consults the
current buffer only at the index being written (which covers both a
non-aliased expression and the self-referential `a = a + b` case): position
`i` ends up holding `g` applied to the original contents at `i`. -/
theorem assignLoop_get (g : Int → Nat → Int) (n : Nat) (data : List Int) (i : Nat) :
    (assignLoop (fun d k => g (d.getD k 0) k) n data).getD i 0 =
      if i < n ∧ i < data.length then g (data.getD i 0) i else data.getD i 0 := by
  induction n with
  | zero => simp [assignLoop]
  | succ n ih =>
    rw [assignLoop_succ]
    by_cases hi : i = n
    · subst hi
      by_cases hlen : i < data.length
      · have hlen' : i < (assignLoop (fun d k => g (d.getD k 0) k) i data).length := by
          rw [assignLoop_length]; exact hlen
        have hA : (assignLoop (fun d k => g (d.getD k 0) k) i data).getD i 0 =
            data.getD i 0 := by
          rw [ih]; simp
        rw [getD_set_self _ _ _ hlen', hA, if_pos ⟨Nat.lt_succ_self i, hlen⟩]
      · have hge : (assignLoop (fun d k => g (d.getD k 0) k) i data).length ≤ i := by
          rw [assignLoop_length]; omega
        rw [List.set_eq_of_length_le hge, ih]
        simp [hlen]
    · rw [getD_set_ne _ _ _ _ (by omega), ih]
      have heq : (i < n + 1 ∧ i < data.length) ↔ (i < n ∧ i < data.length) := by omega
      rw [if_congr heq rfl rfl]

/-- C1: for every binary operation tag `op` and operands `a`, `b` of
identical shape, the expression `a op b` evaluated at any linear index `i`
yields `op (a[i]) (b[i])`, and assigning `d = a op b` through
`fast_matrix::operator=(binary_expr&&)` stores `op (a[i]) (b[i])` at every
index `i` of `d`. -/
theorem binary_expr_elementwise (op : BinTag) (a b d : FastMatrix)
    (hab : a.rows = b.rows ∧ a.cols = b.cols) (hd : d.wf)
    (hdr : d.rows = a.rows) (hdc : d.cols = a.cols)
    (i : Nat) (hi : i < d.size) :
    (BinaryExpr.mk op a.lin b.lin).get i = op.apply (a.lin i) (b.lin i) ∧
    (d.assignExpr (fun _ k => (BinaryExpr.mk op a.lin b.lin).get k)).lin i =
      op.apply (a.lin i) (b.lin i) := by
  have hd' : d.data.length = d.size := hd
  constructor
  · rfl
  · have h : (d.assignExpr (fun _ k => (BinaryExpr.mk op a.lin b.lin).get k)).lin i =
        if i < d.size ∧ i < d.data.length
        then (BinaryExpr.mk op a.lin b.lin).get i else d.data.getD i 0 :=
      assignLoop_get (fun _ k => (BinaryExpr.mk op a.lin b.lin).get k) d.size d.data i
    rw [h, if_pos ⟨hi, by omega⟩]
    rfl

theorem binary_expr_elementwise_witness :
    ((⟨1, 2, [1, 2]⟩ : FastMatrix).rows = (⟨1, 2, [10, 20]⟩ : FastMatrix).rows ∧
      (⟨1, 2, [1, 2]⟩ : FastMatrix).cols = (⟨1, 2, [10, 20]⟩ : FastMatrix).cols) ∧
    (⟨1, 2, [0, 0]⟩ : FastMatrix).wf ∧
    ((⟨1, 2, [0, 0]⟩ : FastMatrix).assignExpr (fun _ k =>
        (BinaryExpr.mk BinTag.plus (FastMatrix.lin ⟨1, 2, [1, 2]⟩)
          (FastMatrix.lin ⟨1, 2, [10, 20]⟩)).get k)).lin 0 =
      BinTag.plus.apply ((⟨1, 2, [1, 2]⟩ : FastMatrix).lin 0)
        ((⟨1, 2, [10, 20]⟩ : FastMatrix).lin 0) :=
  ⟨⟨rfl, rfl⟩, rfl,
    (binary_expr_elementwise BinTag.plus ⟨1, 2, [1, 2]⟩ ⟨1, 2, [10, 20]⟩ ⟨1, 2, [0, 0]⟩
      ⟨rfl, rfl⟩ rfl rfl rfl 0 (by decide)).2⟩

/-- C2: executing `a = a + b` in place, where the expression reads the
destination's current (partially overwritten) buffer, leaves `a` with
exactly the same contents as evaluating `a + b` into a fresh distinct
destination `fresh0` and then copying that destination into `a` with the
copy-assignment loop. -/
theorem aliased_assign_safe (a b : FastMatrix) (ha : a.wf) (fresh0 : FastMatrix)
    (hfr : fresh0.rows = a.rows) (hfc : fresh0.cols = a.cols) (hfw : fresh0.wf)
    (i : Nat) :
    (a.assignExpr (fun d k => BinTag.plus.apply (d.getD k 0) (b.lin k))).lin i =
      (a.assignExpr (fun _ k =>
        (fresh0.assignExpr (fun _ j => BinTag.plus.apply (a.lin j) (b.lin j))).lin k)).lin i := by
  have ha' : a.data.length = a.size := ha
  have hfw' : fresh0.data.length = fresh0.size := hfw
  have hsz : fresh0.size = a.size := by
    unfold FastMatrix.size
    rw [hfr, hfc]
  have hL : (a.assignExpr (fun d k => BinTag.plus.apply (d.getD k 0) (b.lin k))).lin i =
      if i < a.size ∧ i < a.data.length
      then BinTag.plus.apply (a.data.getD i 0) (b.lin i) else a.data.getD i 0 :=
    assignLoop_get (fun cur k => BinTag.plus.apply cur (b.lin k)) a.size a.data i
  have hF : (fresh0.assignExpr (fun _ j => BinTag.plus.apply (a.lin j) (b.lin j))).lin i =
      if i < fresh0.size ∧ i < fresh0.data.length
      then BinTag.plus.apply (a.lin i) (b.lin i) else fresh0.data.getD i 0 :=
    assignLoop_get (fun _ j => BinTag.plus.apply (a.lin j) (b.lin j)) fresh0.size fresh0.data i
  have hR : (a.assignExpr (fun _ k =>
        (fresh0.assignExpr (fun _ j => BinTag.plus.apply (a.lin j) (b.lin j))).lin k)).lin i =
      if i < a.size ∧ i < a.data.length
      then (fresh0.assignExpr (fun _ j => BinTag.plus.apply (a.lin j) (b.lin j))).lin i
      else a.data.getD i 0 :=
    assignLoop_get
      (fun _ k => (fresh0.assignExpr (fun _ j => BinTag.plus.apply (a.lin j) (b.lin j))).lin k)
      a.size a.data i
  rw [hL, hR]
  by_cases hi : i < a.size
  · have hc : i < a.size ∧ i < a.data.length := ⟨hi, by omega⟩
    rw [if_pos hc, if_pos hc, hF,
      if_pos (show i < fresh0.size ∧ i < fresh0.data.length by omega)]
    rfl
  · have hc : ¬(i < a.size ∧ i < a.data.length) := by omega
    rw [if_neg hc, if_neg hc]

theorem aliased_assign_safe_witness :
    (⟨1, 2, [1, 2]⟩ : FastMatrix).wf ∧
    (⟨1, 2, [0, 0]⟩ : FastMatrix).wf ∧
    ((⟨1, 2, [1, 2]⟩ : FastMatrix).assignExpr (fun d k =>
        BinTag.plus.apply (d.getD k 0) ((⟨1, 2, [10, 20]⟩ : FastMatrix).lin k))).lin 0 =
      ((⟨1, 2, [1, 2]⟩ : FastMatrix).assignExpr (fun _ k =>
        ((⟨1, 2, [0, 0]⟩ : FastMatrix).assignExpr (fun _ j =>
          BinTag.plus.apply ((⟨1, 2, [1, 2]⟩ : FastMatrix).lin j)
            ((⟨1, 2, [10, 20]⟩ : FastMatrix).lin j))).lin k)).lin 0 :=
  ⟨rfl, rfl,
    aliased_assign_safe ⟨1, 2, [1, 2]⟩ ⟨1, 2, [10, 20]⟩ rfl ⟨1, 2, [0, 0]⟩ rfl rfl rfl 0⟩

/-- The `gemm_impl` strategy enumeration used by the GEVM selector. -/
inductive gemm_impl where
  | STD
  | BLAS
  | VEC
  | CUBLAS
deriving DecidableEq, Repr

/-- The compile-time and context facts consulted by
`gevm_expr::select_gevm_impl`: backend availability flags, the
vectorizability of the operand types, and the scoped forced selection
(`local_context().gemm_selector`). -/
structure GevmContext where
  cblas_enabled : Bool
  cublas_enabled : Bool
  vec_enabled : Bool
  all_vectorizable : Bool
  is_complex_single : Bool
  forced : Bool
  forced_impl : gemm_impl
deriving DecidableEq, Repr

/-- `gevm_expr::select_default_gevm_impl(n1, n2)`: the default heuristic
selection, not considering the local context. -/
def select_default_gevm_impl (ctx : GevmContext) (n1 n2 : Nat) : gemm_impl :=
  let vec_possible := ctx.all_vectorizable && ctx.vec_enabled
  if ctx.cblas_enabled then
    if vec_possible && n1 * n2 ≤ 200 * 200 then gemm_impl.VEC else gemm_impl.BLAS
  else if vec_possible then gemm_impl.VEC
  else if ctx.cublas_enabled && ctx.is_complex_single && 1000 * 1000 < n1 * n2 then
    gemm_impl.CUBLAS
  else gemm_impl.STD

/-- `gevm_expr::select_gevm_impl(n1, n2)`: honour a forced selection when it
is applicable, otherwise report the mismatch and fall back to the default
heuristic. -/
def select_gevm_impl (ctx : GevmContext) (n1 n2 : Nat) : gemm_impl :=
  if ctx.forced then
    match ctx.forced_impl with
    | gemm_impl.CUBLAS =>
      if !ctx.cublas_enabled then select_default_gevm_impl ctx n1 n2 else gemm_impl.CUBLAS
    | gemm_impl.BLAS =>
      if !ctx.cblas_enabled then select_default_gevm_impl ctx n1 n2 else gemm_impl.BLAS
    | gemm_impl.VEC =>
      if !ctx.vec_enabled || !ctx.all_vectorizable then select_default_gevm_impl ctx n1 n2
      else gemm_impl.VEC
    | impl => impl
  else select_default_gevm_impl ctx n1 n2

/-- Whether a forced implementation is applicable in the given context: the
corresponding backend is compiled in and, for VEC, the operand types are
vectorizable. -/
def gevm_forced_applicable (ctx : GevmContext) : Bool :=
  match ctx.forced_impl with
  | gemm_impl.CUBLAS => ctx.cublas_enabled
  | gemm_impl.BLAS => ctx.cblas_enabled
  | gemm_impl.VEC => ctx.vec_enabled && ctx.all_vectorizable
  | gemm_impl.STD => true

/-- C3: when the context forces an implementation that is not applicable,
`select_gevm_impl` returns the result of the default heuristic for the given
dimensions; when the forced implementation is applicable, the forced value
is returned. -/
theorem select_gevm_impl_forced (ctx : GevmContext) (n1 n2 : Nat)
    (hf : ctx.forced = true) :
    select_gevm_impl ctx n1 n2 =
      if gevm_forced_applicable ctx then ctx.forced_impl
      else select_default_gevm_impl ctx n1 n2 := by
  unfold select_gevm_impl gevm_forced_applicable
  rw [if_pos hf]
  cases himpl : ctx.forced_impl with
  | STD => simp
  | BLAS => cases hb : ctx.cblas_enabled <;> simp
  | VEC =>
    cases hv : ctx.vec_enabled <;> cases ha : ctx.all_vectorizable <;> simp
  | CUBLAS => cases hc : ctx.cublas_enabled <;> simp

theorem select_gevm_impl_forced_witness :
    (GevmContext.mk false false false false false true gemm_impl.BLAS).forced = true ∧
    select_gevm_impl (GevmContext.mk false false false false false true gemm_impl.BLAS) 3 4 =
      (if gevm_forced_applicable
          (GevmContext.mk false false false false false true gemm_impl.BLAS)
        then (GevmContext.mk false false false false false true gemm_impl.BLAS).forced_impl
        else select_default_gevm_impl
          (GevmContext.mk false false false false false true gemm_impl.BLAS) 3 4) :=
  ⟨rfl, select_gevm_impl_forced
    (GevmContext.mk false false false false false true gemm_impl.BLAS) 3 4 rfl⟩

/-- `mm_mul_transformer<L, R>`: the lazy matrix-multiplication node holding
its two operands. -/
structure MmMulTransformer where
  left : FastMatrix
  right : FastMatrix
deriving DecidableEq, Repr

/-- The assertion condition of `mm_mul_transformer::check_mmul_sizes`:
`dim<1>(a) == dim<0>(b)` (interior dimensions). -/
def check_mmul_sizes (a b : FastMatrix) : Bool := a.cols = b.rows

/-- The `mm_mul_transformer` constructor, which runs `check_mmul_sizes`:
construction succeeds exactly when the assertion holds, and the assertion
failure is modelled as `none`. -/
def mm_mul_mk (left right : FastMatrix) : Option MmMulTransformer :=
  if check_mmul_sizes left right then some ⟨left, right⟩ else none

/-- C4: constructing the lazy matrix-multiplication node fails the assertion
check exactly when `dim<1>(a) ≠ dim<0>(b)`; when the inner dimensions agree,
construction succeeds. -/
theorem mm_mul_ctor_assert (a b : FastMatrix) :
    (mm_mul_mk a b = none ↔ a.cols ≠ b.rows) ∧
    (a.cols = b.rows → mm_mul_mk a b = some ⟨a, b⟩) := by
  unfold mm_mul_mk check_mmul_sizes
  constructor
  · by_cases h : a.cols = b.rows <;> simp [h]
  · intro h
    simp [h]

theorem mm_mul_ctor_assert_witness :
    ((mm_mul_mk ⟨2, 3, []⟩ ⟨4, 5, []⟩ = none ↔
        (⟨2, 3, []⟩ : FastMatrix).cols ≠ (⟨4, 5, []⟩ : FastMatrix).rows) ∧
      ((⟨2, 3, []⟩ : FastMatrix).cols = (⟨4, 5, []⟩ : FastMatrix).rows →
        mm_mul_mk ⟨2, 3, []⟩ ⟨4, 5, []⟩ = some ⟨⟨2, 3, []⟩, ⟨4, 5, []⟩⟩)) ∧
    ((⟨2, 3, []⟩ : FastMatrix).cols = (⟨3, 5, []⟩ : FastMatrix).rows ∧
      mm_mul_mk ⟨2, 3, []⟩ ⟨3, 5, []⟩ = some ⟨⟨2, 3, []⟩, ⟨3, 5, []⟩⟩) :=
  ⟨mm_mul_ctor_assert ⟨2, 3, []⟩ ⟨4, 5, []⟩,
    rfl, (mm_mul_ctor_assert ⟨2, 3, []⟩ ⟨3, 5, []⟩).2 rfl⟩

/-- `mm_mul_transformer::operator()(i, j)`: accumulate
`c += left(i, k) * right(k, j)` for `k` from `0` to `columns(left)`,
starting from `c = 0`. -/
def mm_mul_at (t : MmMulTransformer) (i j : Nat) : Int :=
  (List.range t.left.cols).foldl (fun c k => c + t.left.at2 i k * t.right.at2 k j) 0

/-- `etl_traits<mm_mul_transformer>::dim`: dimension 0 comes from the left
operand, dimension 1 from the right operand. -/
def mm_mul_dim (t : MmMulTransformer) (d : Nat) : Nat :=
  if d = 0 then t.left.rows else t.right.cols

theorem foldl_add_eq_sum (f : Nat → Int) (n : Nat) :
    (List.range n).foldl (fun c k => c + f k) 0 = ∑ k ∈ Finset.range n, f k := by
  induction n with
  | zero => simp
  | succ n ih => rw [List.range_succ, List.foldl_append, ih, Finset.sum_range_succ]; rfl

/-- C10: for the lazy matrix-multiplication node over operands of shapes
(R,K) and (K,C), element access at (i,j) returns the sum over `k < K` of
`left(i,k) * right(k,j)`, and the node's reported shape is (R,C). -/
theorem mm_mul_element_formula (t : MmMulTransformer) (R K C : Nat)
    (hlr : t.left.rows = R) (hlc : t.left.cols = K)
    (hrr : t.right.rows = K) (hrc : t.right.cols = C)
    (i j : Nat) (hi : i < R) (hj : j < C) :
    mm_mul_at t i j = ∑ k ∈ Finset.range K, t.left.at2 i k * t.right.at2 k j ∧
    mm_mul_dim t 0 = R ∧ mm_mul_dim t 1 = C := by
  refine ⟨?_, ?_, ?_⟩
  · rw [mm_mul_at, hlc]
    exact foldl_add_eq_sum (fun k => t.left.at2 i k * t.right.at2 k j) K
  · rw [mm_mul_dim, if_pos rfl, hlr]
  · rw [mm_mul_dim, if_neg (by omega), hrc]

theorem mm_mul_element_formula_witness :
    ((⟨1, 2, [1, 2]⟩ : FastMatrix).rows = 1 ∧ (⟨1, 2, [1, 2]⟩ : FastMatrix).cols = 2 ∧
      (⟨2, 1, [3, 4]⟩ : FastMatrix).rows = 2 ∧ (⟨2, 1, [3, 4]⟩ : FastMatrix).cols = 1 ∧
      (0 : Nat) < 1 ∧ (0 : Nat) < 1) ∧
    (mm_mul_at ⟨⟨1, 2, [1, 2]⟩, ⟨2, 1, [3, 4]⟩⟩ 0 0 =
        ∑ k ∈ Finset.range 2,
          (⟨1, 2, [1, 2]⟩ : FastMatrix).at2 0 k * (⟨2, 1, [3, 4]⟩ : FastMatrix).at2 k 0 ∧
      mm_mul_dim ⟨⟨1, 2, [1, 2]⟩, ⟨2, 1, [3, 4]⟩⟩ 0 = 1 ∧
      mm_mul_dim ⟨⟨1, 2, [1, 2]⟩, ⟨2, 1, [3, 4]⟩⟩ 1 = 1) :=
  ⟨⟨rfl, rfl, rfl, rfl, by decide, by decide⟩,
    mm_mul_element_formula ⟨⟨1, 2, [1, 2]⟩, ⟨2, 1, [3, 4]⟩⟩ 1 2 1
      rfl rfl rfl rfl 0 0 (by decide) (by decide)⟩

/-- The inner loops of `impl::max_pool_2d::apply`: start from
`sub(j*C1, k*C2)` and take the maximum over the block
`sub(j*C1 + jj, k*C2 + kk)` for `jj < C1`, `kk < C2`. -/
def max_pool_block (sub : Nat → Nat → Int) (c1 c2 j k : Nat) : Int :=
  (List.range c1).foldl (fun mx jj =>
      (List.range c2).foldl (fun mx2 kk => max mx2 (sub (j * c1 + jj) (k * c2 + kk))) mx)
    (sub (j * c1) (k * c2))

/-- `impl::max_pool_2d::apply<C1, C2>`: the output has
`o1 = dim<0>(sub) / C1` by `o2 = dim<0>(sub) / C2` cells (as in the source,
both computed from dimension 0) and cell `(j, k)` receives the block
maximum. -/
def max_pool_2d_apply (c1 c2 : Nat) (a : FastMatrix) : FastMatrix :=
  let o1 := a.rows / c1
  let o2 := a.rows / c2
  ⟨o1, o2,
    (List.range o1).flatMap (fun j =>
      (List.range o2).map (fun k => max_pool_block a.at2 c1 c2 j k))⟩

/-- C5: for the 4x4 row-major input holding 1..16, the 2x2 non-overlapping
max pooling produces the 2x2 output [[6, 8], [14, 16]]. -/
theorem max_pool_scenario :
    max_pool_2d_apply 2 2
        ⟨4, 4, [1, 2, 3, 4, 5, 6, 7, 8, 9, 10, 11, 12, 13, 14, 15, 16]⟩ =
      ⟨2, 2, [6, 8, 14, 16]⟩ := by
  decide

/-- A 2D expression node as the transformers see it: its two extents and
its element access function. -/
structure Expr2 where
  dim0 : Nat
  dim1 : Nat
  get : Nat → Nat → Int

/-- A `fast_matrix` used as a 2D sub-expression. -/
def FastMatrix.toExpr (m : FastMatrix) : Expr2 := ⟨m.rows, m.cols, m.at2⟩

/-- `transpose_transformer<T>`: `operator()(i, j)` returns `sub(j, i)`, and
`etl_traits<transpose_transformer>::dim(v, d)` is the sub-expression's
dimension `1 - d`; the view holds the sub-expression and stores no element
data of its own. -/
def transpose_transformer (e : Expr2) : Expr2 :=
  ⟨e.dim1, e.dim0, fun i j => e.get j i⟩

/-- C6: for every 2D operand `a` of shape (R,C), the transpose view at
position (i,j), for valid i < C and j < R, returns `a(j, i)`, and the view
reports the swapped shape (C,R). -/
theorem transpose_view_correct (a : Expr2) (R C : Nat)
    (h0 : a.dim0 = R) (h1 : a.dim1 = C) (i j : Nat) (hi : i < C) (hj : j < R) :
    (transpose_transformer a).get i j = a.get j i ∧
    (transpose_transformer a).dim0 = C ∧ (transpose_transformer a).dim1 = R :=
  ⟨rfl, h1, h0⟩

theorem transpose_view_correct_witness :
    ((⟨2, 3, [1, 2, 3, 4, 5, 6]⟩ : FastMatrix).toExpr.dim0 = 2 ∧
      (⟨2, 3, [1, 2, 3, 4, 5, 6]⟩ : FastMatrix).toExpr.dim1 = 3 ∧
      (0 : Nat) < 3 ∧ (1 : Nat) < 2) ∧
    ((transpose_transformer (⟨2, 3, [1, 2, 3, 4, 5, 6]⟩ : FastMatrix).toExpr).get 0 1 =
        (⟨2, 3, [1, 2, 3, 4, 5, 6]⟩ : FastMatrix).toExpr.get 1 0 ∧
      (transpose_transformer (⟨2, 3, [1, 2, 3, 4, 5, 6]⟩ : FastMatrix).toExpr).dim0 = 3 ∧
      (transpose_transformer (⟨2, 3, [1, 2, 3, 4, 5, 6]⟩ : FastMatrix).toExpr).dim1 = 2) :=
  ⟨⟨rfl, rfl, by decide, by decide⟩,
    transpose_view_correct (FastMatrix.toExpr ⟨2, 3, [1, 2, 3, 4, 5, 6]⟩) 2 3
      rfl rfl 0 1 (by decide) (by decide)⟩

/-- C7: applying the transpose view twice yields the original expression
element-wise, and the composed view has the same shape. -/
theorem transpose_round_trip (a : Expr2) (i j : Nat) :
    (transpose_transformer (transpose_transformer a)).get i j = a.get i j ∧
    (transpose_transformer (transpose_transformer a)).dim0 = a.dim0 ∧
    (transpose_transformer (transpose_transformer a)).dim1 = a.dim1 :=
  ⟨rfl, rfl, rfl⟩

/-- `mul_all<Dims...>::value` as used by `etl_traits<fast_matrix_view>::size`:
the product of the compile-time extents. -/
def mul_all (dims : List Nat) : Nat := dims.foldr (fun a b => a * b) 1

/-- `dyn_nth_size<Dims...>(d)` as used by
`etl_traits<fast_matrix_view>::dim`: the d-th compile-time extent. -/
def dyn_nth_size (dims : List Nat) (d : Nat) : Nat := dims.getD d 0

/-- `fast_matrix_view<T, DMA, Dims...>`: the reshape view, characterised by
the extents supplied at construction. -/
structure FastMatrixView where
  dims : List Nat
deriving DecidableEq, Repr

/-- `etl_traits<fast_matrix_view>::size()`. -/
def fmv_size (v : FastMatrixView) : Nat := mul_all v.dims

/-- `etl_traits<fast_matrix_view>::dim(v, d)`. -/
def fmv_dim (v : FastMatrixView) (d : Nat) : Nat := dyn_nth_size v.dims d

/-- `etl_traits<fast_matrix_view>::dimensions()`. -/
def fmv_dimensions (v : FastMatrixView) : Nat := v.dims.length

theorem map_getD_range (l : List Nat) :
    (List.range l.length).map (fun k => l.getD k 0) = l := by
  induction l with
  | nil => simp
  | cons x xs ih =>
    rw [List.length_cons, List.range_succ_eq_map, List.map_cons, List.map_map]
    have hfun : ((fun k => (x :: xs).getD k 0) ∘ Nat.succ) = fun k => xs.getD k 0 := by
      funext k
      simp [Function.comp, List.getD_cons_succ]
    rw [hfun, ih, List.getD_cons_zero]

/-- C8: the reported size of a container or reshape view equals the product
of its per-dimension extents, and each reported `dim(k)` equals the extent
supplied at construction. -/
theorem shape_invariant (m : FastMatrix) (v : FastMatrixView) :
    m.size = m.rows * m.cols ∧
    fmv_size v = ((List.range (fmv_dimensions v)).map (fun k => fmv_dim v k)).prod ∧
    (∀ k, fmv_dim v k = v.dims.getD k 0) := by
  refine ⟨rfl, ?_, fun k => rfl⟩
  have hmap : ((List.range (fmv_dimensions v)).map (fun k => fmv_dim v k)) = v.dims :=
    map_getD_range v.dims
  rw [hmap, fmv_size, mul_all, List.prod_eq_foldr]

/-- The operand buffers handed to the BLAS gemm wrapper. -/
structure GemmArgs where
  a : List Int
  b : List Int
  c : List Int

/-- `etl::impl::blas::gemm`: without `ETL_BLAS_MODE` the body is
`cpp_unreachable("Unsupported feature called: blas gemm")`, modelled as
`none`; with BLAS compiled in, the external cblas call produces the
result. -/
def impl_blas_gemm (etl_blas_mode : Bool) (cblas_gemm : GemmArgs → List Int)
    (args : GemmArgs) : Option (List Int) :=
  if etl_blas_mode then some (cblas_gemm args) else none

/-- The arguments of the EGBLAS sign wrapper. -/
structure SignArgs where
  n : Nat
  alpha : Int
  A : List Int
  lda : Nat
  B : List Int
  ldb : Nat

/-- `etl::impl::egblas::sign` (single precision): without
`EGBLAS_HAS_SSIGN` the body is `cpp_unreachable("Invalid call to
egblas::sign")`, modelled as `none`; with the kernel compiled in, the
external `egblas_ssign` call produces the result. -/
def egblas_sign (egblas_has_ssign : Bool) (egblas_ssign : SignArgs → List Int)
    (args : SignArgs) : Option (List Int) :=
  if egblas_has_ssign then some (egblas_ssign args) else none

/-- C9: invoking a backend entry point whose implementation is not compiled
in (the BLAS gemm wrapper without BLAS mode, the EGBLAS sign wrapper
without the SSIGN kernel) reaches the unreachable condition for every
input and never returns a value. -/
theorem no_fallback_fatal :
    (∀ (cblas_gemm : GemmArgs → List Int) (args : GemmArgs),
      impl_blas_gemm false cblas_gemm args = none) ∧
    (∀ (egblas_ssign : SignArgs → List Int) (args : SignArgs),
      egblas_sign false egblas_ssign args = none) :=
  ⟨fun _ _ => rfl, fun _ _ => rfl⟩

end Etl
